import Mathlib

/-!
Verification development for the Tesserae moodboard pipeline.

The Python sources are shallowly embedded:

* `ImageUploadHandler` (src/color_extraction.py, second half): the upload
  directory and the JSON metadata file become a `StoreState` (a list of file
  names on disk plus an insertion-ordered association list mapping file ids to
  deletion dates).  Wall-clock time is a natural number of seconds; the
  30-day retention window is `30 * 86400` seconds.
* `ColorExtractor.extract_palette` (src/color_extraction.py): image decoding
  and the scikit-learn KMeans run are abstracted by a `ClusteredImage` that
  records the fit result (one cluster label per pixel of the resized image,
  plus the cluster centers).  Everything downstream of `fit_predict` —
  `Counter`, the percentage computation, HLS conversion, naming, role
  assignment, the descending sort and the Primary override — is embedded
  directly.  Float arithmetic is idealized as exact rational arithmetic and
  Python `round(x, 1)` as rounding to the nearest tenth.
* `PatternRecognizer.analyze_patterns` (src/pattern_recognition.py): the
  OpenCV edge/contour stage is abstracted by the list of bounding rectangles
  of the contours with area above 100; the gap computation, the `np.histogram`
  modal-bin base unit, the column estimate and the spacing scale are embedded
  directly.
* `TypographyAnalyzer.analyze_typography` (src/typography_analysis.py): the
  morphology stage is abstracted by the list of detected contour widths and
  the mean grayscale brightness; the catalog selection and the result record
  are embedded directly.
* `export_css_variables` (identical in all three analyzer classes): embedded
  directly over an insertion-ordered token list.

Python exceptions become `Except` values; functions that cannot raise are
total Lean functions.
-/

namespace Tesserae

/-! ## Asset store (`ImageUploadHandler`) -/

/-- State of the upload handler: the files present in the upload directory and
the JSON metadata map (`file_id -> deletion_date`), kept in insertion order as
a Python dict would. -/
structure StoreState where
  files : List String
  metadata : List (String × Nat)
deriving DecidableEq

/-- Well-formedness that the real store maintains: file names in a directory
are unique, and the keys of a JSON object are unique. -/
def StoreState.wf (st : StoreState) : Prop :=
  st.files.Nodup ∧ (st.metadata.map Prod.fst).Nodup

instance (st : StoreState) : Decidable st.wf := by
  unfold StoreState.wf; infer_instance

/-- The 30-day retention window (`timedelta(days=30)`), in seconds. -/
def retention_period : Nat := 30 * 86400

/-- Python dict assignment `m[k] = v`: overwrite in place when the key exists,
append otherwise. -/
def dictInsert (m : List (String × Nat)) (k : String) (v : Nat) :
    List (String × Nat) :=
  if k ∈ m.map Prod.fst then
    m.map (fun p => if p.1 = k then (p.1, v) else p)
  else m ++ [(k, v)]

/-- `ImageUploadHandler.process_upload`, successful path, reduced to its
store effects: the validated image is copied into the upload directory and a
metadata record with `deletion_date = upload_time + timedelta(days=30)` is
written.  Validation, EXIF stripping and the dimension probe do not affect
the store state and are abstracted away. -/
def process_upload (st : StoreState) (fid : String) (uploadTime : Nat) :
    StoreState :=
  { files := st.files ++ [fid]
    metadata := dictInsert st.metadata fid (uploadTime + retention_period) }

/-- `ImageUploadHandler.get_image_for_processing`: the image is retrievable
exactly when its backing file exists (decoding of an existing file is
abstracted as succeeding). -/
def get_image_for_processing (st : StoreState) (fid : String) : Bool :=
  decide (fid ∈ st.files)

/-- One iteration of the `cleanup_expired` loop body, for one snapshot item
`(file_id, deletion_date)`: when `now >= deletion_date`, unlink the backing
file if it exists (recording it in `deleted_files`), then delete the metadata
record. -/
def cleanupStep (now : Nat) (acc : StoreState × List String)
    (item : String × Nat) : StoreState × List String :=
  if item.2 ≤ now then
    let files' := if item.1 ∈ acc.1.files then acc.1.files.erase item.1
                  else acc.1.files
    let deleted' := if item.1 ∈ acc.1.files then acc.2 ++ [item.1] else acc.2
    (⟨files', acc.1.metadata.filter (fun p => decide (p.1 ≠ item.1))⟩, deleted')
  else acc

/-- `ImageUploadHandler.cleanup_expired`: iterate over a snapshot of the
metadata items, deleting expired records and their backing files; returns the
new state together with `deleted_count` and `deleted_files`. -/
def cleanup_expired (st : StoreState) (now : Nat) :
    StoreState × Nat × List String :=
  let r := st.metadata.foldl (cleanupStep now) (st, [])
  (r.1, r.2.length, r.2)

/-- The ids of the records a sweep at time `now` considers expired. -/
def expiredKeys (now : Nat) (ms : List (String × Nat)) : List String :=
  (ms.filter (fun p => decide (p.2 ≤ now))).map Prod.fst

/-! ## Color extraction (`ColorExtractor`) -/

/-- Abstraction of `cv2.imread` + resize + `KMeans(n_clusters, n_init=10).fit_predict`:
the per-pixel cluster labels of the resized 600x400 image and the cluster
centers (float RGB triples, idealized as rationals). -/
structure ClusteredImage where
  labels : List Nat
  centers : List (ℚ × ℚ × ℚ)
deriving DecidableEq

/-- Errors `extract_palette` can raise: `ValueError("Could not load image")`
when `cv2.imread` returns `None`, and the scikit-learn error for a
non-positive `n_clusters` (the spec's `InvalidArgument`). -/
inductive ExtractErr where
  | decodeError
  | invalidArgument
deriving DecidableEq

/-- The operations `extract_palette` performs, in source order; used to state
what work happens before a failure. -/
inductive ExtractStep where
  | imread
  | cvtColor
  | resize
  | reshape
  | kmeansFit
  | buildSwatches
deriving DecidableEq

/-- One entry of the `colors_data` list. `hsl` is the dictionary with keys
h/s/l flattened into three fields. -/
structure Swatch where
  name : String
  hex : String
  rgb : List ℤ
  hslH : ℤ
  hslS : ℤ
  hslL : ℤ
  percentage : ℚ
  role : String
deriving DecidableEq

/-- The `analysis` dictionary of the palette result. -/
structure PaletteAnalysis where
  color_scheme : String
  temperature : String
  accessibility : List String
deriving DecidableEq

/-- The dictionary returned by `extract_palette`. -/
structure Palette where
  colors : List Swatch
  analysis : PaletteAnalysis
deriving DecidableEq

/-- Python `int()` applied to a float: truncation toward zero (idealized over
the rationals). -/
def truncInt (q : ℚ) : ℤ :=
  if 0 ≤ q then ⌊q⌋ else -⌊-q⌋

/-- Python `round(x, 1)`: round to the nearest tenth (idealized; the tie mode
of binary floats is immaterial to every stated property). -/
def roundTenth (q : ℚ) : ℚ :=
  ((round (q * 10) : ℤ) : ℚ) / 10

/-- One step of building `collections.Counter(labels)`: bump the count of a
key, inserting it at the end on first occurrence (Python dict order). -/
def counterAdd (m : List (Nat × Nat)) (x : Nat) : List (Nat × Nat) :=
  if x ∈ m.map Prod.fst then
    m.map (fun p => if p.1 = x then (p.1, p.2 + 1) else p)
  else m ++ [(x, 1)]

/-- `collections.Counter(labels)` as an insertion-ordered association list,
so `counter ls` lists the distinct labels in first-occurrence order with
their multiplicities (the iteration order of `counts.keys()`). -/
def counter (ls : List Nat) : List (Nat × Nat) :=
  ls.foldl counterAdd []

/-- A lowercase hexadecimal digit. -/
def hexDigit (n : Nat) : Char :=
  if n < 10 then Char.ofNat (48 + n) else Char.ofNat (87 + n)

/-- Python `"\x7b:02x\x7d".format(n)` for a byte-range integer: two lowercase
hex digits. -/
def toHexByte (n : ℤ) : String :=
  String.mk [hexDigit (n.toNat / 16 % 16), hexDigit (n.toNat % 16)]

/-- `colorsys.rgb_to_hls`, translated verbatim (returns `(h, l, s)`); the
final `% 1.0` is the fractional part. -/
def rgb_to_hls (r g b : ℚ) : ℚ × ℚ × ℚ :=
  let maxc := max r (max g b)
  let minc := min r (min g b)
  let l := (minc + maxc) / 2
  if minc = maxc then (0, l, 0)
  else
    let s := if l ≤ 1/2 then (maxc - minc) / (maxc + minc)
             else (maxc - minc) / (2 - maxc - minc)
    let rc := (maxc - r) / (maxc - minc)
    let gc := (maxc - g) / (maxc - minc)
    let bc := (maxc - b) / (maxc - minc)
    let h := if r = maxc then bc - gc
             else if g = maxc then 2 + rc - bc
             else 4 + gc - rc
    (h / 6 - ⌊h / 6⌋, l, s)

/-- `ColorExtractor._get_color_name`, with the float literals read as exact
decimals. -/
def get_color_name (h l s : ℚ) : String :=
  if l < 1/10 then "Black"
  else if l > 9/10 then "White"
  else if s < 1/10 then "Gray"
  else
    let hue_deg := h * 360
    if hue_deg < 30 then "Red"
    else if hue_deg < 90 then "Yellow"
    else if hue_deg < 150 then "Green"
    else if hue_deg < 210 then "Cyan"
    else if hue_deg < 270 then "Blue"
    else if hue_deg < 330 then "Magenta"
    else "Red"

/-- The loop body of `extract_palette`: build one swatch from a cluster
center and its pixel count. -/
def mkSwatch (total : Nat) (entry : (ℚ × ℚ × ℚ) × Nat) : Swatch :=
  let rgb0 := entry.1
  let count := entry.2
  let r0 := truncInt rgb0.1
  let g0 := truncInt rgb0.2.1
  let b0 := truncInt rgb0.2.2
  let percentage := roundTenth ((count : ℚ) / (total : ℚ) * 100)
  let r := (r0 : ℚ) / 255
  let g := (g0 : ℚ) / 255
  let b := (b0 : ℚ) / 255
  let hls := rgb_to_hls r g b
  let h := hls.1
  let l := hls.2.1
  let s := hls.2.2
  { name := get_color_name h l s
    hex := "#" ++ toHexByte r0 ++ toHexByte g0 ++ toHexByte b0
    rgb := [r0, g0, b0]
    hslH := truncInt (h * 360)
    hslS := truncInt (s * 100)
    hslL := truncInt (l * 100)
    percentage := percentage
    role := if l > 9/10 then "Background"
            else if l < 1/10 then "Text/Dark"
            else if s > 1/2 then "Accent"
            else "Secondary" }

/-- Ordering used to model `np.argsort(ordered_counts)[::-1]`: clusters with
larger pixel counts come first. -/
def countGe (a b : (ℚ × ℚ × ℚ) × Nat) : Prop := b.2 ≤ a.2

instance : DecidableRel countGe := fun a b => by
  unfold countGe; infer_instance

instance : IsTotal ((ℚ × ℚ × ℚ) × Nat) countGe :=
  ⟨fun a b => (Nat.le_total b.2 a.2).imp id id⟩

instance : IsTrans ((ℚ × ℚ × ℚ) × Nat) countGe :=
  ⟨fun _ _ _ h1 h2 => Nat.le_trans h2 h1⟩

/-- The override `if colors_data: colors_data[0]['role'] = 'Primary'`:
relabel the first swatch Primary. -/
def promote_primary : List Swatch → List Swatch
  | [] => []
  | c :: rest => { c with role := "Primary" } :: rest

/-- The `colors_data` list `extract_palette` builds after the KMeans fit:
count labels in first-occurrence order (`Counter`), pair each cluster center
with its count, rank by descending pixel count
(`np.argsort(ordered_counts)[::-1]`), build one swatch per populated
cluster, then relabel the top swatch Primary. -/
def colors_data_of (ci : ClusteredImage) : List Swatch :=
  let pairs := counter ci.labels
  let ordered := pairs.map (fun p => (ci.centers.getD p.1 (0, 0, 0), p.2))
  let total := (pairs.map Prod.snd).sum
  let sortedPairs := ordered.insertionSort countGe
  promote_primary (sortedPairs.map (mkSwatch total))

/-- `ColorExtractor.extract_palette` downstream of image decoding and of the
KMeans fit.  An undecodable image raises (`decodeError`); a non-positive
cluster count makes `fit_predict` raise (`invalidArgument`); otherwise the
clusters are counted, ranked by descending pixel share, turned into swatches
and the top swatch is relabeled Primary. -/
def extract_palette (img : Option ClusteredImage) (n_colors : ℤ) :
    Except ExtractErr Palette :=
  match img with
  | none => Except.error ExtractErr.decodeError
  | some ci =>
    if n_colors ≤ 0 then Except.error ExtractErr.invalidArgument
    else
      Except.ok
        { colors := colors_data_of ci
          analysis :=
            { color_scheme := "Generated Scheme"
              temperature :=
                if ((colors_data_of ci).take 3).any
                    (fun c => decide (c.name ∈ ["Red", "Orange", "Yellow"]))
                then "Warm" else "Cool"
              accessibility := ["AA Large", "AA Normal"] } }

/-- The operations `extract_palette` performs before returning or raising, in
source order: `cv2.imread` always runs first; a decodable image is color
converted, resized and reshaped before `KMeans.fit_predict` is reached, where
a non-positive cluster count raises. -/
def extract_palette_steps (img : Option ClusteredImage) (n_colors : ℤ) :
    List ExtractStep :=
  [ExtractStep.imread] ++
    match img with
    | none => []
    | some _ =>
      [ExtractStep.cvtColor, ExtractStep.resize, ExtractStep.reshape] ++
        if n_colors ≤ 0 then []
        else [ExtractStep.kmeansFit, ExtractStep.buildSwatches]

/-! ## Pattern recognition (`PatternRecognizer`) -/

/-- A `cv2.boundingRect` result `(x, y, w, h)`. -/
structure CvRect where
  x : ℤ
  y : ℤ
  w : ℤ
  h : ℤ
deriving DecidableEq

/-- Abstraction of a decoded image for `analyze_patterns`: its pixel width
(`image.shape[1]`) and the bounding rectangles of the external contours whose
area exceeds 100 (the `rects` list; Canny and `findContours` themselves are
not modeled). -/
structure PatternImage where
  width : Nat
  rects : List CvRect
deriving DecidableEq

/-- The dictionary returned by `analyze_patterns`, with the nested `spacing`
and `grid` dictionaries flattened; `spacing_scale` is kept as an ordered
key-value list so that which named steps are present is part of the value. -/
structure PatternProfile where
  base_unit : Nat
  spacing_scale : List (String × Nat)
  total_gaps_analyzed : Nat
  columns : ℤ
  gutter : Nat
  margin : Nat
deriving DecidableEq

/-- Ordering for `rects.sort(key=lambda x: x[0])` (stable, like Python's
`list.sort`). -/
def rectLe (a b : CvRect) : Prop := a.x ≤ b.x

instance : DecidableRel rectLe := fun a b => by
  unfold rectLe; infer_instance

instance : IsTotal CvRect rectLe :=
  ⟨fun a b => Int.le_total a.x b.x⟩

instance : IsTrans CvRect rectLe :=
  ⟨fun _ _ _ h1 h2 => Int.le_trans h1 h2⟩

/-- The gap loop of `analyze_patterns`: horizontal gaps between consecutive
boxes of the x-sorted list, keeping only positive gaps. -/
def gapsOf : List CvRect → List ℤ
  | [] => []
  | [_] => []
  | a :: b :: rest =>
    (if b.x - (a.x + a.w) > 0 then [b.x - (a.x + a.w)] else []) ++
      gapsOf (b :: rest)

/-- `np.histogram(spacings, bins=range(0, 100, 4))`: the count in bin `i` of
the 24 bins `[0,4), [4,8), ..., [88,92), [92,96]` (the last bin is closed). -/
def histCount (spacings : List ℤ) (i : Nat) : Nat :=
  (spacings.filter (fun s =>
    decide ((4 * i : ℤ) ≤ s) &&
      (decide (s < (4 * (i + 1) : ℤ)) || (decide (i = 23) && decide (s = 96))))).length

/-- The 24 bin counts of the histogram. -/
def histCounts (spacings : List ℤ) : List Nat :=
  (List.range 24).map (histCount spacings)

/-- `np.argmax`: index of the first maximal entry (0 for an empty list). -/
def argmaxIdx (l : List Nat) : Nat :=
  (l.foldl
    (fun (acc : Nat × Nat × Nat) c =>
      if c > acc.2.1 then (acc.2.2, c, acc.2.2 + 1)
      else (acc.1, acc.2.1, acc.2.2 + 1))
    (0, 0, 0)).1

/-- The `base_unit` selection: default 8, replaced by the lower edge of the
modal histogram bin when there are gaps and that edge is positive. -/
def base_unit_of (spacings : List ℤ) : Nat :=
  if spacings.isEmpty then 8
  else
    let edge := 4 * argmaxIdx (histCounts spacings)
    if edge > 0 then edge else 8

/-- Python `int()` truncation for a nonnegative rational, as used for the
column estimate. -/
def truncNat (q : ℚ) : Nat :=
  (truncInt q).toNat

/-- The column estimate: `max(1, min(12, int(width / (avg_width + base_unit))))`
when more than two boxes were found, else 12. -/
def columns_of (width : Nat) (rects : List CvRect) (bu : Nat) : ℤ :=
  if rects.length > 2 then
    let avg : ℚ := ((rects.map (fun r => (r.w : ℚ))).sum) / (rects.length : ℚ)
    max 1 (min 12 (truncInt ((width : ℚ) / (avg + (bu : ℚ)))))
  else 12

/-- `PatternRecognizer._default_patterns`: note its `spacing_scale` carries
only the xs/sm/md steps. -/
def default_patterns : PatternProfile :=
  { base_unit := 8
    spacing_scale := [("xs", 4), ("sm", 8), ("md", 16)]
    total_gaps_analyzed := 0
    columns := 12
    gutter := 16
    margin := 24 }

/-- `PatternRecognizer.analyze_patterns`: an undecodable image yields the
default profile; otherwise the boxes are sorted by x, positive gaps are
collected, the base unit and column count are inferred and the profile is
assembled. -/
def analyze_patterns (img : Option PatternImage) : PatternProfile :=
  match img with
  | none => default_patterns
  | some im =>
    let sortedRects := im.rects.insertionSort rectLe
    let spacings := gapsOf sortedRects
    let bu := base_unit_of spacings
    let cols := columns_of im.width im.rects bu
    { base_unit := bu
      spacing_scale :=
        [("xs", bu / 2), ("sm", bu), ("md", bu * 2), ("lg", bu * 4),
         ("xl", bu * 8)]
      total_gaps_analyzed := spacings.length
      columns := cols
      gutter := bu * 2
      margin := bu * 3 }

/-! ## Typography analysis (`TypographyAnalyzer`) -/

/-- One entry of `pairings_db`. -/
structure FontPairing where
  name : String
  heading : String
  body : String
  use_case : String
deriving DecidableEq

/-- The fixed three-entry catalog `TypographyAnalyzer.pairings_db`. -/
def pairings_db : List FontPairing :=
  [⟨"Modern Sans", "Inter", "Roboto", "UI"⟩,
   ⟨"Classic Serif", "Playfair Display", "Lato", "Editorial"⟩,
   ⟨"Tech Mono", "Space Grotesk", "JetBrains Mono", "Tech"⟩]

/-- Placeholder pairing for out-of-range catalog indexing (never reached:
the selection index is always 0, 1 or 2). -/
def noPairing : FontPairing := ⟨"", "", "", ""⟩

/-- Abstraction of a decoded image for `analyze_typography`: the widths of
the external contours found after morphology, and the mean grayscale
brightness `np.mean(gray)`. -/
structure TypoImage where
  contourWidths : List ℤ
  brightness : ℚ
deriving DecidableEq

/-- The dictionary returned by `analyze_typography`; `font_suggestions` is
flattened into the heading/body font lists. -/
structure TypographyProfile where
  text_detected : Bool
  text_regions : Nat
  dominant_weight : String
  font_pairings : List FontPairing
  heading_fonts : List String
  body_fonts : List String
deriving DecidableEq

/-- `TypographyAnalyzer._default_result`: note its `font_pairings` holds only
the first catalog entry. -/
def default_result : TypographyProfile :=
  { text_detected := false
    text_regions := 0
    dominant_weight := "Regular"
    font_pairings := [pairings_db.getD 0 noPairing]
    heading_fonts := ["Inter"]
    body_fonts := ["Roboto"] }

/-- `TypographyAnalyzer.analyze_typography`: an undecodable image yields the
default result; otherwise contours wider than 20 px are counted as text
regions, a catalog index is selected from the mean brightness (dark -> 2,
bright -> 1, else 0) and the selected entry plus the next one (wrapping
around) are returned. -/
def analyze_typography (img : Option TypoImage) : TypographyProfile :=
  match img with
  | none => default_result
  | some im =>
    let text_regions :=
      (im.contourWidths.filter (fun w => decide (w > 20))).length
    let idx : Nat :=
      if im.brightness < 80 then 2 else if im.brightness > 200 then 1 else 0
    let selected := pairings_db.getD idx noPairing
    { text_detected := decide (text_regions > 0)
      text_regions := text_regions
      dominant_weight := if im.brightness > 128 then "Regular" else "Bold"
      font_pairings := [selected, pairings_db.getD ((idx + 1) % 3) noPairing]
      heading_fonts := [selected.heading]
      body_fonts := [selected.body] }

/-! ## Token export (`export_css_variables`) -/

/-- One design token value: the exporter reads only the `value` field; the
`type` and optional `comment` fields ride along. -/
structure DesignToken where
  value : String
  ttype : String
  comment : Option String := none
deriving DecidableEq

/-- `export_css_variables` (textually identical in `ColorExtractor`,
`PatternRecognizer` and `TypographyAnalyzer`): fold the token map in
insertion order into a `:root` block, one `  --name: value;` line per
token. -/
def export_css_variables (tokens : List (String × DesignToken)) : String :=
  let css := ":root \x7b\n"
  let css := tokens.foldl
    (fun css p => css ++ ("  --" ++ p.1 ++ ": " ++ p.2.value ++ ";\n")) css
  css ++ "\x7d"

/-- Concatenation of a list of strings, for stating the shape of the CSS
export. -/
def concatStrings : List String → String
  | [] => ""
  | s :: rest => s ++ concatStrings rest

/-! ## Association-list helper lemmas -/

/-- In a list with pairwise-distinct keys, an entry is determined by its
key. -/
theorem key_inj {α β : Type} {ms : List (α × β)}
    (h : (ms.map Prod.fst).Nodup) {p q : α × β}
    (hp : p ∈ ms) (hq : q ∈ ms) (hpq : p.1 = q.1) : p = q := by
  induction ms with
  | nil => cases hp
  | cons hd tl ih =>
    rw [List.map_cons, List.nodup_cons] at h
    rcases List.mem_cons.mp hp with rfl | hp' <;>
      rcases List.mem_cons.mp hq with rfl | hq'
    · rfl
    · exact absurd (hpq ▸ List.mem_map_of_mem Prod.fst hq') h.1
    · exact absurd (hpq ▸ List.mem_map_of_mem Prod.fst hp') h.1
    · exact ih h.2 hp' hq'

/-- Inserting a fresh key into a Python dict appends the pair. -/
theorem dictInsert_of_not_mem {m : List (String × Nat)} {k : String}
    (h : k ∉ m.map Prod.fst) (v : Nat) : dictInsert m k v = m ++ [(k, v)] := by
  simp [dictInsert, h]

/-- Looking up a freshly appended key. -/
theorem lookup_append_of_not_mem {m : List (String × Nat)} {k : String}
    (h : k ∉ m.map Prod.fst) (v : Nat) :
    (m ++ [(k, v)]).lookup k = some v := by
  induction m with
  | nil => simp [List.lookup]
  | cons hd tl ih =>
    obtain ⟨k1, v1⟩ := hd
    rw [List.map_cons] at h
    have hne : k ≠ k1 := fun he => h (by simp [he])
    have h2 : k ∉ tl.map Prod.fst := fun hm => h (List.mem_cons_of_mem _ hm)
    have hb : (k == k1) = false := beq_eq_false_iff_ne.mpr hne
    simpa [List.lookup, hb] using ih h2

/-! ## Cleanup sweep characterization -/

/-- Unfolding `expiredKeys` over a cons cell. -/
theorem expiredKeys_cons (now : Nat) (k : String) (d : Nat)
    (tl : List (String × Nat)) :
    expiredKeys now ((k, d) :: tl)
      = if d ≤ now then k :: expiredKeys now tl else expiredKeys now tl := by
  by_cases hd : d ≤ now <;> simp [expiredKeys, List.filter_cons, hd]

/-- Closed form of the `cleanup_expired` fold: starting from files `fs`,
metadata `meta` and accumulator `del`, sweeping the snapshot `ms` keeps
exactly the files and records whose key is not expired in `ms`, and appends
to `del` the expired keys whose backing file existed. -/
theorem cleanup_foldl (now : Nat) (ms : List (String × Nat)) :
    ∀ (fs : List String) (meta : List (String × Nat)) (del : List String),
      (ms.map Prod.fst).Nodup → fs.Nodup →
      ms.foldl (cleanupStep now) (⟨fs, meta⟩, del)
        = (⟨fs.filter (fun f => decide (f ∉ expiredKeys now ms)),
            meta.filter (fun p => decide (p.1 ∉ expiredKeys now ms))⟩,
           del ++ (ms.filter (fun p =>
             decide (p.2 ≤ now) && decide (p.1 ∈ fs))).map Prod.fst) := by
  induction ms with
  | nil =>
    intro fs meta del _ _
    simp [expiredKeys]
  | cons hd tl ih =>
    intro fs meta del hkeys hfs
    obtain ⟨k, d⟩ := hd
    rw [List.map_cons, List.nodup_cons] at hkeys
    have hk : k ∉ tl.map Prod.fst := hkeys.1
    have htlk : ∀ p ∈ tl, p.1 ≠ k := by
      intro p hp he
      exact hk (he ▸ List.mem_map_of_mem Prod.fst hp)
    by_cases hd : d ≤ now
    · have hstep : cleanupStep now (⟨fs, meta⟩, del) (k, d)
          = (⟨fs.erase k, meta.filter (fun p => decide (p.1 ≠ k))⟩,
             del ++ if k ∈ fs then [k] else []) := by
        by_cases hkf : k ∈ fs <;>
          simp [cleanupStep, hd, hkf, List.erase_of_not_mem]
      rw [List.foldl_cons, hstep, ih _ _ _ hkeys.2 (hfs.erase k)]
      rw [expiredKeys_cons, if_pos hd]
      simp only [Prod.mk.injEq, StoreState.mk.injEq]
      refine ⟨⟨?_, ?_⟩, ?_⟩
      · rw [hfs.erase_eq_filter, List.filter_filter]
        refine List.filter_congr ?_
        intro f _
        by_cases h1 : f = k <;> by_cases h2 : f ∈ expiredKeys now tl <;>
          simp [h1, h2]
      · rw [List.filter_filter]
        refine List.filter_congr ?_
        intro p _
        by_cases h1 : p.1 = k <;> by_cases h2 : p.1 ∈ expiredKeys now tl <;>
          simp [h1, h2]
      · have hcong : tl.filter (fun p =>
            decide (p.2 ≤ now) && decide (p.1 ∈ fs.erase k))
            = tl.filter (fun p => decide (p.2 ≤ now) && decide (p.1 ∈ fs)) := by
          refine List.filter_congr ?_
          intro p hp
          simp [List.mem_erase_of_ne (htlk p hp)]
        rw [hcong, List.filter_cons]
        by_cases hkf : k ∈ fs <;> simp [hd, hkf]
    · have hstep : cleanupStep now (⟨fs, meta⟩, del) (k, d) = (⟨fs, meta⟩, del) := by
        simp [cleanupStep, hd]
      rw [List.foldl_cons, hstep, ih _ _ _ hkeys.2 hfs]
      rw [expiredKeys_cons, if_neg hd, List.filter_cons]
      simp [hd]

/-- A sweep keeps exactly the unexpired metadata records. -/
theorem cleanup_metadata_eq (st : StoreState) (now : Nat) (h : st.wf) :
    ((cleanup_expired st now).1).metadata
      = st.metadata.filter (fun p => decide (¬ p.2 ≤ now)) := by
  have hf := cleanup_foldl now st.metadata st.files st.metadata [] h.2 h.1
  show (st.metadata.foldl (cleanupStep now) (st, [])).1.metadata = _
  rw [hf]
  refine List.filter_congr ?_
  intro p hp
  have hiff : p.1 ∈ expiredKeys now st.metadata ↔ p.2 ≤ now := by
    constructor
    · intro hmem
      obtain ⟨q, hq, hqe⟩ := List.mem_map.mp hmem
      obtain ⟨hqm, hqd⟩ := List.mem_filter.mp hq
      cases key_inj h.2 hqm hp hqe
      exact of_decide_eq_true hqd
    · intro hle
      exact List.mem_map_of_mem Prod.fst
        (List.mem_filter.mpr ⟨hp, decide_eq_true hle⟩)
  simp [hiff]

/-- A sweep keeps exactly the files whose id is not expired. -/
theorem cleanup_files_eq (st : StoreState) (now : Nat) (h : st.wf) :
    ((cleanup_expired st now).1).files
      = st.files.filter (fun f => decide (f ∉ expiredKeys now st.metadata)) := by
  have hf := cleanup_foldl now st.metadata st.files st.metadata [] h.2 h.1
  show (st.metadata.foldl (cleanupStep now) (st, [])).1.files = _
  rw [hf]

/-- `deleted_files` lists exactly the expired ids whose backing file was
present, in metadata order. -/
theorem cleanup_deleted_eq (st : StoreState) (now : Nat) (h : st.wf) :
    (cleanup_expired st now).2.2
      = (st.metadata.filter (fun p =>
          decide (p.2 ≤ now) && decide (p.1 ∈ st.files))).map Prod.fst := by
  have hf := cleanup_foldl now st.metadata st.files st.metadata [] h.2 h.1
  show (st.metadata.foldl (cleanupStep now) (st, [])).2 = _
  rw [hf]
  simp

/-- `deleted_count` is the length of `deleted_files`. -/
theorem cleanup_count_eq (st : StoreState) (now : Nat) :
    (cleanup_expired st now).2.1 = (cleanup_expired st now).2.2.length := rfl

/-- Sweeping preserves well-formedness of the store. -/
theorem cleanup_wf (st : StoreState) (now : Nat) (h : st.wf) :
    ((cleanup_expired st now).1).wf := by
  constructor
  · rw [cleanup_files_eq st now h]
    exact h.1.filter _
  · rw [cleanup_metadata_eq st now h]
    exact ((List.filter_sublist _).map Prod.fst).nodup h.2

/-- A sweep that finds no expired record changes nothing and deletes
nothing. -/
theorem cleanup_noexpired (st : StoreState) (now : Nat)
    (h : ∀ p ∈ st.metadata, ¬ p.2 ≤ now) :
    cleanup_expired st now = (st, 0, []) := by
  have hfold : ∀ (ms : List (String × Nat)) (acc : StoreState × List String),
      (∀ p ∈ ms, ¬ p.2 ≤ now) → ms.foldl (cleanupStep now) acc = acc := by
    intro ms
    induction ms with
    | nil => intro acc _; rfl
    | cons hd tl ih =>
      intro acc hh
      rw [List.foldl_cons]
      have hs : cleanupStep now acc hd = acc := by
        simp [cleanupStep, hh hd (List.mem_cons_self _ _)]
      rw [hs]
      exact ih _ (fun p hp => hh p (List.mem_cons_of_mem _ hp))
  show (let r := st.metadata.foldl (cleanupStep now) (st, []);
        (r.1, r.2.length, r.2)) = (st, 0, [])
  rw [hfold st.metadata (st, []) h]
  rfl

/-- A filter misses at least one element that fails the predicate. -/
theorem filter_length_lt {α : Type} {l : List α} {q : α → Bool} {a : α}
    (ha : a ∈ l) (hqa : q a = false) : (l.filter q).length < l.length := by
  induction l with
  | nil => cases ha
  | cons hd tl ih =>
    rcases List.mem_cons.mp ha with rfl | ha'
    · rw [List.filter_cons, hqa]
      exact Nat.lt_succ_of_le (List.length_filter_le _ _)
    · rw [List.filter_cons]
      cases hq : q hd
      · exact Nat.lt_succ_of_lt (ih ha')
      · simpa using Nat.succ_lt_succ (ih ha')

/-- C1: an asset ingested at time `T` gets deletion date exactly `T` plus the
30-day retention window; it is still retrievable via
`get_image_for_processing` after a sweep at any time strictly before
`T + 30 days`, and a sweep at any time at or past `T + 30 days` removes both
its metadata record and its backing file (listing it among the deleted
files). -/
theorem upload_retention_lifecycle (st : StoreState) (fid : String)
    (T t1 t2 : Nat) (hwf : st.wf) (hff : fid ∉ st.files)
    (hfm : fid ∉ st.metadata.map Prod.fst)
    (h1 : t1 < T + retention_period) (h2 : T + retention_period ≤ t2) :
    (process_upload st fid T).metadata.lookup fid = some (T + retention_period)
    ∧ get_image_for_processing (process_upload st fid T) fid = true
    ∧ get_image_for_processing
        ((cleanup_expired (process_upload st fid T) t1).1) fid = true
    ∧ (fid, T + retention_period)
        ∈ ((cleanup_expired (process_upload st fid T) t1).1).metadata
    ∧ fid ∉ ((cleanup_expired
        ((cleanup_expired (process_upload st fid T) t1).1) t2).1).files
    ∧ fid ∉ ((cleanup_expired
        ((cleanup_expired (process_upload st fid T) t1).1) t2).1).metadata.map
          Prod.fst
    ∧ fid ∈ (cleanup_expired
        ((cleanup_expired (process_upload st fid T) t1).1) t2).2.2 := by
  set dl := T + retention_period with hdl
  have hmeta1 : (process_upload st fid T).metadata = st.metadata ++ [(fid, dl)] := by
    show dictInsert st.metadata fid dl = _
    exact dictInsert_of_not_mem hfm dl
  have hfiles1 : (process_upload st fid T).files = st.files ++ [fid] := rfl
  set st1 := process_upload st fid T
  have hwf1 : st1.wf := by
    constructor
    · rw [hfiles1]
      exact List.nodup_append.mpr ⟨hwf.1, List.nodup_singleton fid,
        fun a ha hb => by
          rw [List.mem_singleton] at hb
          exact hff (hb ▸ ha)⟩
    · rw [hmeta1, List.map_append]
      exact List.nodup_append.mpr ⟨hwf.2, by simp,
        fun a ha hb => by
          simp only [List.map_cons, List.map_nil, List.mem_singleton] at hb
          exact hfm (hb ▸ ha)⟩
  have hmem1 : (fid, dl) ∈ st1.metadata := by
    rw [hmeta1]
    exact List.mem_append_right _ (List.mem_singleton_self _)
  have hfmem1 : fid ∈ st1.files := by
    rw [hfiles1]
    exact List.mem_append_right _ (List.mem_singleton_self _)
  have hnotexp1 : fid ∉ expiredKeys t1 st1.metadata := by
    intro hmem
    obtain ⟨q, hq, hqe⟩ := List.mem_map.mp hmem
    obtain ⟨hqm, hqd⟩ := List.mem_filter.mp hq
    cases key_inj hwf1.2 hqm hmem1 hqe
    exact absurd (of_decide_eq_true hqd) (not_le.mpr h1)
  set st2 := (cleanup_expired st1 t1).1 with hst2
  have hwf2 : st2.wf := cleanup_wf st1 t1 hwf1
  have hmem2 : (fid, dl) ∈ st2.metadata := by
    rw [hst2, cleanup_metadata_eq st1 t1 hwf1]
    exact List.mem_filter.mpr ⟨hmem1, decide_eq_true (not_le.mpr h1)⟩
  have hfmem2 : fid ∈ st2.files := by
    rw [hst2, cleanup_files_eq st1 t1 hwf1]
    exact List.mem_filter.mpr ⟨hfmem1, decide_eq_true hnotexp1⟩
  have hexp2 : fid ∈ expiredKeys t2 st2.metadata :=
    List.mem_map_of_mem Prod.fst (List.mem_filter.mpr ⟨hmem2, decide_eq_true h2⟩)
  refine ⟨?_, ?_, ?_, hmem2, ?_, ?_, ?_⟩
  · rw [hmeta1]
    exact lookup_append_of_not_mem hfm dl
  · exact decide_eq_true hfmem1
  · exact decide_eq_true hfmem2
  · rw [cleanup_files_eq st2 t2 hwf2]
    intro hmem
    exact of_decide_eq_true (List.mem_filter.mp hmem).2 hexp2
  · rw [cleanup_metadata_eq st2 t2 hwf2]
    intro hmem
    obtain ⟨q, hq, hqe⟩ := List.mem_map.mp hmem
    obtain ⟨hqm, hqd⟩ := List.mem_filter.mp hq
    cases key_inj hwf2.2 hqm hmem2 hqe
    exact of_decide_eq_true hqd h2
  · rw [cleanup_deleted_eq st2 t2 hwf2]
    refine List.mem_map_of_mem Prod.fst (List.mem_filter.mpr ⟨hmem2, ?_⟩)
    simp [h2, hfmem2]

/-- C1 witness: a fresh store, an upload at time 0, a sweep one second before
the deadline and a sweep exactly at the deadline. -/
theorem upload_retention_lifecycle_witness :
    (process_upload ⟨[], []⟩ "img" 0).metadata.lookup "img"
        = some (0 + retention_period)
    ∧ get_image_for_processing (process_upload ⟨[], []⟩ "img" 0) "img" = true
    ∧ get_image_for_processing
        ((cleanup_expired (process_upload ⟨[], []⟩ "img" 0) 2591999).1) "img" = true
    ∧ ("img", 0 + retention_period)
        ∈ ((cleanup_expired (process_upload ⟨[], []⟩ "img" 0) 2591999).1).metadata
    ∧ "img" ∉ ((cleanup_expired
        ((cleanup_expired (process_upload ⟨[], []⟩ "img" 0) 2591999).1)
          2592000).1).files
    ∧ "img" ∉ ((cleanup_expired
        ((cleanup_expired (process_upload ⟨[], []⟩ "img" 0) 2591999).1)
          2592000).1).metadata.map Prod.fst
    ∧ "img" ∈ (cleanup_expired
        ((cleanup_expired (process_upload ⟨[], []⟩ "img" 0) 2591999).1)
          2592000).2.2 :=
  upload_retention_lifecycle ⟨[], []⟩ "img" 0 2591999 2592000 (by decide)
    (by decide) (by decide) (by decide) (by decide)

/-- C8: a sweep removes every record whose deletion date has passed together
with its backing file, so an immediately repeated sweep (no ingestion in
between) finds no expired record: it deletes 0 assets, returns an empty
deleted list and leaves the store unchanged. -/
theorem sweep_idempotent (st : StoreState) (now : Nat) (hwf : st.wf) :
    (∀ p ∈ st.metadata, p.2 ≤ now →
        p.1 ∉ ((cleanup_expired st now).1).metadata.map Prod.fst
        ∧ p.1 ∉ ((cleanup_expired st now).1).files)
    ∧ (cleanup_expired ((cleanup_expired st now).1) now).2.1 = 0
    ∧ (cleanup_expired ((cleanup_expired st now).1) now).2.2 = []
    ∧ (cleanup_expired ((cleanup_expired st now).1) now).1
        = (cleanup_expired st now).1 := by
  have hmeta := cleanup_metadata_eq st now hwf
  have hfiles := cleanup_files_eq st now hwf
  have hnoexp : ∀ p ∈ ((cleanup_expired st now).1).metadata, ¬ p.2 ≤ now := by
    intro p hp
    rw [hmeta] at hp
    exact of_decide_eq_true (List.mem_filter.mp hp).2
  have hsecond := cleanup_noexpired _ now hnoexp
  refine ⟨?_, by rw [hsecond], by rw [hsecond], by rw [hsecond]⟩
  intro p hp hexp
  constructor
  · rw [hmeta]
    intro hmem
    obtain ⟨q, hq, hqe⟩ := List.mem_map.mp hmem
    obtain ⟨hqm, hqd⟩ := List.mem_filter.mp hq
    cases key_inj hwf.2 hqm hp hqe
    exact of_decide_eq_true hqd hexp
  · rw [hfiles]
    intro hmem
    exact of_decide_eq_true (List.mem_filter.mp hmem).2
      (List.mem_map_of_mem Prod.fst
        (List.mem_filter.mpr ⟨hp, decide_eq_true hexp⟩))

/-- C8 witness: one expired record with its file present; the repeated sweep
deletes nothing. -/
theorem sweep_idempotent_witness :
    (∀ p ∈ (⟨["a"], [("a", 5)]⟩ : StoreState).metadata, p.2 ≤ 10 →
        p.1 ∉ ((cleanup_expired ⟨["a"], [("a", 5)]⟩ 10).1).metadata.map Prod.fst
        ∧ p.1 ∉ ((cleanup_expired ⟨["a"], [("a", 5)]⟩ 10).1).files)
    ∧ (cleanup_expired ((cleanup_expired ⟨["a"], [("a", 5)]⟩ 10).1) 10).2.1 = 0
    ∧ (cleanup_expired ((cleanup_expired ⟨["a"], [("a", 5)]⟩ 10).1) 10).2.2 = []
    ∧ (cleanup_expired ((cleanup_expired ⟨["a"], [("a", 5)]⟩ 10).1) 10).1
        = (cleanup_expired ⟨["a"], [("a", 5)]⟩ 10).1 :=
  sweep_idempotent ⟨["a"], [("a", 5)]⟩ 10 (by decide)

/-- C10: an expired record whose backing file is already gone is still
removed from the metadata store, but is neither listed in `deleted_files` nor
counted in `deleted_count`, so `deleted_count` undercounts the records
removed. -/
theorem missing_file_uncounted (st : StoreState) (now : Nat) (fid : String)
    (d : Nat) (hwf : st.wf) (hmem : (fid, d) ∈ st.metadata) (hexp : d ≤ now)
    (hmiss : fid ∉ st.files) :
    fid ∉ ((cleanup_expired st now).1).metadata.map Prod.fst
    ∧ fid ∉ (cleanup_expired st now).2.2
    ∧ (cleanup_expired st now).2.1 = (cleanup_expired st now).2.2.length
    ∧ (cleanup_expired st now).2.1
        < (st.metadata.filter (fun p => decide (p.2 ≤ now))).length := by
  refine ⟨?_, ?_, rfl, ?_⟩
  · rw [cleanup_metadata_eq st now hwf]
    intro hm
    obtain ⟨q, hq, hqe⟩ := List.mem_map.mp hm
    obtain ⟨hqm, hqd⟩ := List.mem_filter.mp hq
    cases key_inj hwf.2 hqm hmem hqe
    exact of_decide_eq_true hqd hexp
  · rw [cleanup_deleted_eq st now hwf]
    intro hm
    obtain ⟨q, hq, hqe⟩ := List.mem_map.mp hm
    obtain ⟨hqm, hqd⟩ := List.mem_filter.mp hq
    rw [Bool.and_eq_true] at hqd
    exact hmiss (hqe ▸ of_decide_eq_true hqd.2)
  · rw [cleanup_count_eq, cleanup_deleted_eq st now hwf, List.length_map]
    have hsplit : st.metadata.filter (fun p =>
        decide (p.2 ≤ now) && decide (p.1 ∈ st.files))
        = (st.metadata.filter (fun p => decide (p.2 ≤ now))).filter
            (fun p => decide (p.1 ∈ st.files)) := by
      rw [List.filter_filter]
      refine List.filter_congr ?_
      intro p _
      rw [Bool.and_comm]
    rw [hsplit]
    exact filter_length_lt
      (List.mem_filter.mpr ⟨hmem, decide_eq_true hexp⟩)
      (decide_eq_false hmiss)

/-- C10 witness: two expired records, one with its file present and one with
its file missing; the count is 1 though 2 records are removed. -/
theorem missing_file_uncounted_witness :
    "a" ∉ ((cleanup_expired ⟨["b"], [("a", 0), ("b", 0)]⟩ 0).1).metadata.map
        Prod.fst
    ∧ "a" ∉ (cleanup_expired ⟨["b"], [("a", 0), ("b", 0)]⟩ 0).2.2
    ∧ (cleanup_expired ⟨["b"], [("a", 0), ("b", 0)]⟩ 0).2.1
        = (cleanup_expired ⟨["b"], [("a", 0), ("b", 0)]⟩ 0).2.2.length
    ∧ (cleanup_expired ⟨["b"], [("a", 0), ("b", 0)]⟩ 0).2.1
        < ((⟨["b"], [("a", 0), ("b", 0)]⟩ : StoreState).metadata.filter
            (fun p => decide (p.2 ≤ 0))).length :=
  missing_file_uncounted ⟨["b"], [("a", 0), ("b", 0)]⟩ 0 "a" 0 (by decide)
    (by decide) (by decide) (by decide)

/-- C2: both advisory analyzers are total functions of their input; on an
undecodable (or missing) image they raise nothing and return their
documented defaults: the pattern default with `base_unit = 8` and
`columns = 12`, and the typography default with no text detected and exactly
the first catalog entry. -/
theorem analyzers_default_on_undecodable :
    analyze_patterns none = default_patterns
    ∧ (analyze_patterns none).base_unit = 8
    ∧ (analyze_patterns none).columns = 12
    ∧ analyze_typography none = default_result
    ∧ (analyze_typography none).text_detected = false
    ∧ (analyze_typography none).text_regions = 0
    ∧ (analyze_typography none).font_pairings = pairings_db.take 1 := by
  refine ⟨rfl, rfl, rfl, rfl, rfl, rfl, by decide⟩

/-- C4 counterexample: the default profile returned for an undecodable image
has no `lg` and no `xl` entry in its spacing scale at all, so it cannot
satisfy `lg = 4 x base_unit` and `xl = 8 x base_unit`. -/
theorem default_spacing_scale_missing_lg_xl :
    (analyze_patterns none).spacing_scale.lookup "lg" = none
    ∧ (analyze_patterns none).spacing_scale.lookup "xl" = none
    ∧ ¬ ((analyze_patterns none).spacing_scale.lookup "lg"
          = some ((analyze_patterns none).base_unit * 4)
        ∧ (analyze_patterns none).spacing_scale.lookup "xl"
          = some ((analyze_patterns none).base_unit * 8)) := by
  refine ⟨rfl, rfl, by decide⟩

/-- C4 amended: a profile inferred from a decodable image carries all five
spacing steps with `xs = base_unit / 2`, `sm = base_unit`,
`md = 2 x base_unit`, `lg = 4 x base_unit`, `xl = 8 x base_unit` (integer
division); the default profile carries only the xs/sm/md steps, which do
satisfy those three relations, and has no lg/xl entries. -/
theorem spacing_scale_relations (im : PatternImage) :
    ((analyze_patterns (some im)).spacing_scale.lookup "xs"
        = some ((analyze_patterns (some im)).base_unit / 2)
      ∧ (analyze_patterns (some im)).spacing_scale.lookup "sm"
        = some ((analyze_patterns (some im)).base_unit)
      ∧ (analyze_patterns (some im)).spacing_scale.lookup "md"
        = some ((analyze_patterns (some im)).base_unit * 2)
      ∧ (analyze_patterns (some im)).spacing_scale.lookup "lg"
        = some ((analyze_patterns (some im)).base_unit * 4)
      ∧ (analyze_patterns (some im)).spacing_scale.lookup "xl"
        = some ((analyze_patterns (some im)).base_unit * 8))
    ∧ ((analyze_patterns none).spacing_scale.lookup "xs"
        = some ((analyze_patterns none).base_unit / 2)
      ∧ (analyze_patterns none).spacing_scale.lookup "sm"
        = some ((analyze_patterns none).base_unit)
      ∧ (analyze_patterns none).spacing_scale.lookup "md"
        = some ((analyze_patterns none).base_unit * 2)
      ∧ (analyze_patterns none).spacing_scale.lookup "lg" = none
      ∧ (analyze_patterns none).spacing_scale.lookup "xl" = none) :=
  ⟨⟨rfl, rfl, rfl, rfl, rfl⟩, rfl, rfl, rfl, rfl, rfl⟩

/-- C5 counterexample: the default result returned for an undecodable image
holds a single catalog entry, not two. -/
theorem default_font_pairings_single :
    (analyze_typography none).font_pairings.length = 1
    ∧ (analyze_typography none).font_pairings.length ≠ 2
    ∧ (analyze_typography none).font_pairings = pairings_db.take 1 := by
  refine ⟨rfl, by decide, by decide⟩

/-- C5 amended: for a decodable image the returned pairing list is exactly
the brightness-selected catalog entry followed by the next one with
wrap-around — two distinct entries of the fixed 3-entry catalog; the default
result for an undecodable image instead holds exactly one entry, the first
catalog entry. -/
theorem font_pairing_selection (im : TypoImage) :
    (∃ i : Nat, i < 3
      ∧ i = (if im.brightness < 80 then 2
             else if im.brightness > 200 then 1 else 0)
      ∧ (analyze_typography (some im)).font_pairings
          = [pairings_db.getD i noPairing,
             pairings_db.getD ((i + 1) % 3) noPairing]
      ∧ (analyze_typography (some im)).font_pairings.length = 2
      ∧ (analyze_typography (some im)).font_pairings.getD 0 noPairing
          ≠ (analyze_typography (some im)).font_pairings.getD 1 noPairing
      ∧ ∀ p ∈ (analyze_typography (some im)).font_pairings, p ∈ pairings_db)
    ∧ (analyze_typography none).font_pairings = [pairings_db.getD 0 noPairing] := by
  refine ⟨?_, rfl⟩
  by_cases hb1 : im.brightness < 80
  · exact ⟨2, by decide, by simp [hb1], by simp [analyze_typography, hb1],
      by simp [analyze_typography, hb1],
      by simp [analyze_typography, hb1]; decide,
      by simp [analyze_typography, hb1]; decide⟩
  · by_cases hb2 : im.brightness > 200
    · exact ⟨1, by decide, by simp [hb1, hb2],
        by simp [analyze_typography, hb1, hb2],
        by simp [analyze_typography, hb1, hb2],
        by simp [analyze_typography, hb1, hb2]; decide,
        by simp [analyze_typography, hb1, hb2]; decide⟩
    · exact ⟨0, by decide, by simp [hb1, hb2],
        by simp [analyze_typography, hb1, hb2],
        by simp [analyze_typography, hb1, hb2],
        by simp [analyze_typography, hb1, hb2]; decide,
        by simp [analyze_typography, hb1, hb2]; decide⟩

/-- Folding string concatenation equals concatenating the mapped pieces. -/
theorem foldl_append_str {α : Type} (f : α → String) (l : List α) :
    ∀ acc : String,
      l.foldl (fun s a => s ++ f a) acc = acc ++ concatStrings (l.map f) := by
  induction l with
  | nil =>
    intro acc
    simp [concatStrings]
  | cons hd tl ih =>
    intro acc
    rw [List.foldl_cons, ih, List.map_cons]
    show _ = acc ++ (f hd ++ concatStrings (tl.map f))
    rw [← String.append_assoc]

/-- C9: the stylesheet export is literally a single `:root` block containing,
in the token map's insertion order, one `  --key: value;` line per token with
the token's `value` string verbatim. -/
theorem export_css_line_per_token (tokens : List (String × DesignToken)) :
    export_css_variables tokens
      = ":root \x7b\n"
        ++ concatStrings (tokens.map
            (fun p => "  --" ++ p.1 ++ ": " ++ p.2.value ++ ";\n"))
        ++ "\x7d" := by
  show (tokens.foldl
      (fun css p => css ++ ("  --" ++ p.1 ++ ": " ++ p.2.value ++ ";\n"))
      ":root \x7b\n") ++ "\x7d" = _
  rw [foldl_append_str (fun p => "  --" ++ p.1 ++ ": " ++ p.2.value ++ ";\n")
    tokens ":root \x7b\n"]

/-- C7 counterexample: with a decodable image and cluster count 0 the
extraction does fail with the invalid-argument error, but only after having
decoded (`imread`), converted, resized and reshaped the image — partial work
is performed and the image is decoded before failing; and with an
undecodable image the failure is the decode error, not the invalid-argument
error. -/
theorem invalid_cluster_decodes_first :
    extract_palette (some ⟨[0], [(0, 0, 0)]⟩) 0
        = Except.error ExtractErr.invalidArgument
    ∧ extract_palette_steps (some ⟨[0], [(0, 0, 0)]⟩) 0
        = [ExtractStep.imread, ExtractStep.cvtColor, ExtractStep.resize,
           ExtractStep.reshape]
    ∧ ExtractStep.imread ∈ extract_palette_steps (some ⟨[0], [(0, 0, 0)]⟩) 0
    ∧ extract_palette none 0 = Except.error ExtractErr.decodeError :=
  ⟨rfl, rfl, by decide, rfl⟩

/-- C7 amended: a non-positive cluster count makes `extract_palette` fail
with the invalid-argument error raised by the clustering step, but only
after the image has been decoded, color-converted, resized and reshaped; on
an undecodable image the decode error is raised instead, whatever the
cluster count. -/
theorem invalid_cluster_after_preprocessing (ci : ClusteredImage) (k : ℤ)
    (hk : k ≤ 0) :
    extract_palette (some ci) k = Except.error ExtractErr.invalidArgument
    ∧ extract_palette_steps (some ci) k
        = [ExtractStep.imread, ExtractStep.cvtColor, ExtractStep.resize,
           ExtractStep.reshape]
    ∧ ExtractStep.imread ∈ extract_palette_steps (some ci) k
    ∧ extract_palette none k = Except.error ExtractErr.decodeError := by
  refine ⟨?_, ?_, ?_, rfl⟩
  · simp [extract_palette, hk]
  · simp [extract_palette_steps, hk]
  · simp [extract_palette_steps, hk]

/-- C7 witness: cluster count -1 on some decodable image. -/
theorem invalid_cluster_after_preprocessing_witness :
    extract_palette (some ⟨[], []⟩) (-1)
        = Except.error ExtractErr.invalidArgument
    ∧ extract_palette_steps (some ⟨[], []⟩) (-1)
        = [ExtractStep.imread, ExtractStep.cvtColor, ExtractStep.resize,
           ExtractStep.reshape]
    ∧ ExtractStep.imread ∈ extract_palette_steps (some ⟨[], []⟩) (-1)
    ∧ extract_palette none (-1) = Except.error ExtractErr.decodeError :=
  invalid_cluster_after_preprocessing ⟨[], []⟩ (-1) (by decide)

/-! ## Counter lemmas -/

/-- `counterAdd` keeps the key list, or appends the new key. -/
theorem counterAdd_fst (m : List (Nat × Nat)) (x : Nat) :
    (counterAdd m x).map Prod.fst
      = if x ∈ m.map Prod.fst then m.map Prod.fst
        else m.map Prod.fst ++ [x] := by
  by_cases hx : x ∈ m.map Prod.fst
  · rw [if_pos hx]
    simp only [counterAdd, if_pos hx, List.map_map]
    refine List.map_congr_left ?_
    intro p _
    by_cases h : p.1 = x <;> simp [Function.comp, h]
  · rw [if_neg hx]
    simp [counterAdd, hx]

/-- `counterAdd` preserves distinctness of keys. -/
theorem counterAdd_keys_nodup {m : List (Nat × Nat)}
    (h : (m.map Prod.fst).Nodup) (x : Nat) :
    ((counterAdd m x).map Prod.fst).Nodup := by
  rw [counterAdd_fst]
  by_cases hx : x ∈ m.map Prod.fst
  · rwa [if_pos hx]
  · rw [if_neg hx]
    exact List.nodup_append.mpr ⟨h, List.nodup_singleton x,
      fun a ha hb => by
        rw [List.mem_singleton] at hb
        exact hx (hb ▸ ha)⟩

/-- Bumping an existing key adds one to the total count. -/
theorem bump_sum (x : Nat) :
    ∀ (m : List (Nat × Nat)), (m.map Prod.fst).Nodup → x ∈ m.map Prod.fst →
      ((m.map (fun p => if p.1 = x then (p.1, p.2 + 1) else p)).map
          Prod.snd).sum
        = (m.map Prod.snd).sum + 1 := by
  intro m
  induction m with
  | nil => intro _ hx; cases hx
  | cons hd tl ih =>
    intro hnd hx
    rw [List.map_cons, List.nodup_cons] at hnd
    by_cases hh : hd.1 = x
    · have htl : ∀ p ∈ tl, p.1 ≠ x := by
        intro p hp he
        exact hnd.1 (hh ▸ he ▸ List.mem_map_of_mem Prod.fst hp)
      have hid : tl.map (fun p => if p.1 = x then (p.1, p.2 + 1) else p) = tl := by
        refine List.map_congr_left ?_ |>.trans (List.map_id tl)
        intro p hp
        simp [htl p hp]
      simp only [List.map_cons, if_pos hh, List.sum_cons, hid]
      omega
    · have hx' : x ∈ tl.map Prod.fst := by
        rcases List.mem_cons.mp hx with he | h'
        · exact absurd he.symm hh
        · exact h'
      simp only [List.map_cons, if_neg hh, List.sum_cons, ih hnd.2 hx']
      omega

/-- `counterAdd` adds exactly one to the total count. -/
theorem counterAdd_sum {m : List (Nat × Nat)}
    (h : (m.map Prod.fst).Nodup) (x : Nat) :
    ((counterAdd m x).map Prod.snd).sum = (m.map Prod.snd).sum + 1 := by
  by_cases hx : x ∈ m.map Prod.fst
  · rw [counterAdd, if_pos hx]
    exact bump_sum x m h hx
  · rw [counterAdd, if_neg hx]
    simp

/-- Invariant of the `counter` fold: keys stay distinct, the total count
grows by the number of processed labels, and every key comes from the seed
or the labels. -/
theorem counter_fold_inv (ls : List Nat) :
    ∀ (m : List (Nat × Nat)), (m.map Prod.fst).Nodup →
      (((ls.foldl counterAdd m).map Prod.fst).Nodup
      ∧ ((ls.foldl counterAdd m).map Prod.snd).sum
          = (m.map Prod.snd).sum + ls.length
      ∧ ∀ p ∈ ls.foldl counterAdd m, p.1 ∈ m.map Prod.fst ∨ p.1 ∈ ls) := by
  induction ls with
  | nil =>
    intro m h
    exact ⟨h, by simp, fun p hp => Or.inl (List.mem_map_of_mem Prod.fst hp)⟩
  | cons x tl ih =>
    intro m h
    have h1 := counterAdd_keys_nodup h x
    obtain ⟨ha, hb, hc⟩ := ih (counterAdd m x) h1
    refine ⟨ha, ?_, ?_⟩
    · rw [List.foldl_cons, hb, counterAdd_sum h x, List.length_cons]
      omega
    · intro p hp
      rcases hc p hp with hm | hl
      · rw [counterAdd_fst] at hm
        by_cases hx : x ∈ m.map Prod.fst
        · rw [if_pos hx] at hm
          exact Or.inl hm
        · rw [if_neg hx] at hm
          rcases List.mem_append.mp hm with h' | h'
          · exact Or.inl h'
          · rw [List.mem_singleton] at h'
            exact Or.inr (h' ▸ List.mem_cons_self x tl)
      · exact Or.inr (List.mem_cons_of_mem x hl)

/-- The keys of `Counter(labels)` are pairwise distinct. -/
theorem counter_keys_nodup (ls : List Nat) :
    ((counter ls).map Prod.fst).Nodup :=
  (counter_fold_inv ls [] (by simp)).1

/-- The counts of `Counter(labels)` sum to the number of labels. -/
theorem counter_sum (ls : List Nat) :
    ((counter ls).map Prod.snd).sum = ls.length := by
  have h := (counter_fold_inv ls [] (by simp)).2.1
  simpa using h

/-- Every key of `Counter(labels)` occurs among the labels. -/
theorem counter_keys_mem (ls : List Nat) :
    ∀ p ∈ counter ls, p.1 ∈ ls := by
  intro p hp
  rcases (counter_fold_inv ls [] (by simp)).2.2 p hp with h | h
  · simp at h
  · exact h

/-- A nonempty label list yields a nonempty counter. -/
theorem counter_ne_nil {ls : List Nat} (h : ls ≠ []) : counter ls ≠ [] := by
  intro hc
  have := counter_sum ls
  rw [hc] at this
  simp at this
  exact h (List.length_eq_zero.mp this.symm)

/-- At most `k` distinct labels exist when every label is below `k`. -/
theorem counter_length_le (ls : List Nat) (k : Nat) (h : ∀ l ∈ ls, l < k) :
    (counter ls).length ≤ k := by
  have hkeys := counter_keys_nodup ls
  have hbound : ∀ x ∈ (counter ls).map Prod.fst, x < k := by
    intro x hx
    obtain ⟨p, hp, rfl⟩ := List.mem_map.mp hx
    exact h p.1 (counter_keys_mem ls p hp)
  have hlen : (counter ls).length = ((counter ls).map Prod.fst).length :=
    (List.length_map _ _).symm
  rw [hlen, ← List.toFinset_card_of_nodup hkeys]
  calc ((counter ls).map Prod.fst).toFinset.card
      ≤ (Finset.range k).card := by
        refine Finset.card_le_card ?_
        intro x hx
        exact Finset.mem_range.mpr (hbound x (List.mem_toFinset.mp hx))
    _ = k := Finset.card_range k

/-! ## Rounding and percentage-sum lemmas -/

/-- Rounding to the nearest tenth moves a value by at most one twentieth. -/
theorem roundTenth_abs_le (q : ℚ) : |roundTenth q - q| ≤ 1 / 20 := by
  unfold roundTenth
  have h := abs_sub_round (q * 10)
  rw [abs_sub_comm] at h
  have he : ((round (q * 10) : ℤ) : ℚ) / 10 - q
      = (((round (q * 10) : ℤ) : ℚ) - q * 10) / 10 := by ring
  rw [he, abs_div]
  rw [show |(10 : ℚ)| = 10 by norm_num]
  linarith

/-- Rounding to the nearest tenth is monotone. -/
theorem roundTenth_mono {a b : ℚ} (h : a ≤ b) : roundTenth a ≤ roundTenth b := by
  unfold roundTenth
  have hr : round (a * 10) ≤ round (b * 10) := by
    rw [round_eq, round_eq]
    exact Int.floor_le_floor (by linarith)
  have hc : ((round (a * 10) : ℤ) : ℚ) ≤ ((round (b * 10) : ℤ) : ℚ) :=
    Int.cast_le.mpr hr
  linarith

/-- Summing pointwise-close functions keeps the sums within
`length * epsilon`. -/
theorem sum_map_sub_abs_le {α : Type} (l : List α) (f g : α → ℚ) (ε : ℚ)
    (h : ∀ a ∈ l, |f a - g a| ≤ ε) :
    |(l.map f).sum - (l.map g).sum| ≤ (l.length : ℚ) * ε := by
  induction l with
  | nil => simp
  | cons hd tl ih =>
    have h1 := h hd (List.mem_cons_self hd tl)
    have h2 := ih (fun a ha => h a (List.mem_cons_of_mem hd ha))
    simp only [List.map_cons, List.sum_cons, List.length_cons]
    have he : f hd + (tl.map f).sum - (g hd + (tl.map g).sum)
        = (f hd - g hd) + ((tl.map f).sum - (tl.map g).sum) := by ring
    rw [he]
    calc |(f hd - g hd) + ((tl.map f).sum - (tl.map g).sum)|
        ≤ |f hd - g hd| + |(tl.map f).sum - (tl.map g).sum| := abs_add _ _
      _ ≤ ε + (tl.length : ℚ) * ε := add_le_add h1 h2
      _ = ((tl.length : ℚ) + 1) * ε := by ring
      _ = (((tl.length + 1 : Nat)) : ℚ) * ε := by push_cast; ring

/-- The exact (unrounded) percentages of a count list sum to 100. -/
theorem exact_percent_sum_aux (T : ℚ) (pairs : List (Nat × Nat)) :
    (pairs.map (fun p => ((p.2 : ℚ) / T) * 100)).sum
      = ((pairs.map Prod.snd).sum : ℚ) * 100 / T := by
  induction pairs with
  | nil => simp
  | cons hd tl ih =>
    simp only [List.map_cons, List.sum_cons, ih]
    push_cast
    ring

/-- With a nonzero total, the exact percentage list sums to exactly 100. -/
theorem exact_percent_sum {pairs : List (Nat × Nat)} {total : Nat}
    (htot : (pairs.map Prod.snd).sum = total) (h0 : total ≠ 0) :
    (pairs.map (fun p => ((p.2 : ℚ) / (total : ℚ)) * 100)).sum = 100 := by
  rw [exact_percent_sum_aux, htot]
  have : ((total : ℚ)) ≠ 0 := Nat.cast_ne_zero.mpr h0
  field_simp

/-! ## Swatch pipeline lemmas -/

/-- The percentage a swatch records, unfolded. -/
theorem mkSwatch_percentage (total : Nat) (e : (ℚ × ℚ × ℚ) × Nat) :
    (mkSwatch total e).percentage
      = roundTenth ((e.2 : ℚ) / (total : ℚ) * 100) := rfl

/-- Relabeling the top swatch keeps the list length. -/
theorem promote_primary_length (l : List Swatch) :
    (promote_primary l).length = l.length := by
  cases l <;> rfl

/-- Relabeling the top swatch keeps every percentage. -/
theorem promote_primary_map_percentage (l : List Swatch) :
    (promote_primary l).map Swatch.percentage = l.map Swatch.percentage := by
  cases l <;> rfl

/-- A larger pixel count yields a no-smaller rounded percentage. -/
theorem mkSwatch_percentage_mono (total : Nat) {a b : (ℚ × ℚ × ℚ) × Nat}
    (h : countGe a b) :
    (mkSwatch total b).percentage ≤ (mkSwatch total a).percentage := by
  have h' : b.2 ≤ a.2 := h
  show roundTenth ((b.2 : ℚ) / (total : ℚ) * 100)
      ≤ roundTenth ((a.2 : ℚ) / (total : ℚ) * 100)
  refine roundTenth_mono ?_
  have hc : (b.2 : ℚ) ≤ (a.2 : ℚ) := Nat.cast_le.mpr h'
  by_cases ht : (total : ℚ) = 0
  · rw [ht]
    simp [div_zero]
  · have hpos : (0 : ℚ) < (total : ℚ) :=
      lt_of_le_of_ne (Nat.cast_nonneg total) (Ne.symm ht)
    have h2 : (b.2 : ℚ) / (total : ℚ) ≤ (a.2 : ℚ) / (total : ℚ) :=
      (div_le_div_iff_of_pos_right hpos).mpr hc
    linarith

/-- The swatch list built from the ranked clusters is sorted by descending
percentage. -/
theorem sorted_swatches (total : Nat) (ordered : List ((ℚ × ℚ × ℚ) × Nat)) :
    ((ordered.insertionSort countGe).map (mkSwatch total)).Pairwise
      (fun a b => b.percentage ≤ a.percentage) := by
  have hs : (ordered.insertionSort countGe).Pairwise countGe :=
    List.sorted_insertionSort countGe ordered
  exact List.pairwise_map.mpr (hs.imp (fun hab => mkSwatch_percentage_mono total hab))

/-- `promote_primary` on a nonempty descending-sorted list: the head becomes
Primary, stays first, the list stays sorted, and the head's percentage is
maximal. -/
theorem promote_primary_spec (l : List Swatch) (hne : l ≠ [])
    (hp : l.Pairwise (fun a b => b.percentage ≤ a.percentage)) :
    ∃ c0 rest, promote_primary l = c0 :: rest
      ∧ c0.role = "Primary"
      ∧ (promote_primary l).Pairwise (fun a b => b.percentage ≤ a.percentage)
      ∧ ∀ s ∈ promote_primary l, s.percentage ≤ c0.percentage := by
  obtain ⟨c, rest, rfl⟩ := List.exists_cons_of_ne_nil hne
  rw [List.pairwise_cons] at hp
  refine ⟨{ c with role := "Primary" }, rest, rfl, rfl, ?_, ?_⟩
  · show List.Pairwise _ ({ c with role := "Primary" } :: rest)
    exact List.pairwise_cons.mpr ⟨fun b hb => hp.1 b hb, hp.2⟩
  · intro s hs
    rcases List.mem_cons.mp hs with rfl | hs'
    · exact le_refl _
    · exact hp.1 s hs'

/-- `colors_data` has one swatch per populated cluster. -/
theorem colors_data_of_length (ci : ClusteredImage) :
    (colors_data_of ci).length = (counter ci.labels).length := by
  unfold colors_data_of
  rw [promote_primary_length, List.length_map,
    (List.perm_insertionSort countGe _).length_eq, List.length_map]

/-- The percentages of `colors_data` sum to the rounded percentages of the
cluster counts (ranking and relabeling permute but do not change them). -/
theorem colors_data_percent_sum (ci : ClusteredImage) :
    ((colors_data_of ci).map Swatch.percentage).sum
      = ((counter ci.labels).map (fun p => roundTenth
          ((p.2 : ℚ) / ((((counter ci.labels).map Prod.snd).sum : ℕ) : ℚ)
            * 100))).sum := by
  unfold colors_data_of
  rw [promote_primary_map_percentage, List.map_map]
  have hperm := (List.perm_insertionSort countGe
      ((counter ci.labels).map
        (fun p => (ci.centers.getD p.1 (0, 0, 0), p.2)))).map
    (Swatch.percentage ∘ mkSwatch (((counter ci.labels).map Prod.snd).sum))
  rw [hperm.sum_eq, List.map_map]
  refine congrArg List.sum (List.map_congr_left ?_)
  intro p _
  rfl

/-- C3 counterexample: on a solid-color image every pixel lands in one
cluster (the KMeans fit on 240000 identical pixels labels them all alike), so
with requested cluster count 2 the extraction returns 1 swatch, not 2. -/
theorem extract_palette_not_exactly_k :
    (extract_palette (some ⟨[0, 0, 0], [(10, 10, 10), (20, 20, 20)]⟩) 2).map
        (fun p => p.colors.length) = Except.ok 1
    ∧ (1 : Nat) ≠ 2 :=
  ⟨rfl, by decide⟩

/-- C3 amended: for a decodable image and requested cluster count `k >= 1`,
`extract_palette` returns exactly one swatch per populated cluster — between
1 and `k`, but possibly fewer than `k` when clusters end up empty — and the
swatch percentages sum to 100 within the rounding tolerance `0.1 x k`. -/
theorem extract_palette_swatch_count_sum (n : ℤ) (ci : ClusteredImage)
    (hn : ¬ n ≤ 0) (hne : ci.labels ≠ [])
    (hb : ∀ l ∈ ci.labels, (l : ℤ) < n) :
    ∃ pal, extract_palette (some ci) n = Except.ok pal
      ∧ pal.colors.length = (counter ci.labels).length
      ∧ 1 ≤ pal.colors.length
      ∧ (pal.colors.length : ℤ) ≤ n
      ∧ |(pal.colors.map Swatch.percentage).sum - 100|
          ≤ (n : ℚ) * (1 / 10) := by
  have hok : extract_palette (some ci) n
      = Except.ok
          { colors := colors_data_of ci
            analysis :=
              { color_scheme := "Generated Scheme"
                temperature :=
                  if ((colors_data_of ci).take 3).any
                      (fun c => decide (c.name ∈ ["Red", "Orange", "Yellow"]))
                  then "Warm" else "Cool"
                accessibility := ["AA Large", "AA Normal"] } } := by
    simp only [extract_palette, if_neg hn]
  have hlen := colors_data_of_length ci
  have hpos : 0 < (counter ci.labels).length :=
    List.length_pos.mpr (counter_ne_nil hne)
  have h0n : 0 ≤ n := le_of_lt (not_le.mp hn)
  have hcle : ((counter ci.labels).length : ℤ) ≤ n := by
    have hk : ∀ l ∈ ci.labels, l < n.toNat :=
      fun l hl => Int.lt_toNat.mpr (hb l hl)
    have h1 := counter_length_le ci.labels n.toNat hk
    calc ((counter ci.labels).length : ℤ)
        ≤ (n.toNat : ℤ) := Int.ofNat_le.mpr h1
      _ = n := Int.toNat_of_nonneg h0n
  have htot0 : (((counter ci.labels).map Prod.snd).sum) ≠ 0 := by
    rw [counter_sum]
    intro h0
    exact hne (List.length_eq_zero.mp h0)
  have hexact : ((counter ci.labels).map (fun p =>
      ((p.2 : ℚ) / ((((counter ci.labels).map Prod.snd).sum : ℕ) : ℚ))
        * 100)).sum = 100 := exact_percent_sum rfl htot0
  have hdiff := sum_map_sub_abs_le (counter ci.labels)
      (fun p => roundTenth
        ((p.2 : ℚ) / ((((counter ci.labels).map Prod.snd).sum : ℕ) : ℚ) * 100))
      (fun p =>
        ((p.2 : ℚ) / ((((counter ci.labels).map Prod.snd).sum : ℕ) : ℚ)) * 100)
      (1 / 20) (fun a _ => roundTenth_abs_le _)
  rw [hexact] at hdiff
  refine ⟨_, hok, ?_, ?_, ?_, ?_⟩
  · exact hlen
  · show 1 ≤ (colors_data_of ci).length
    rw [hlen]
    exact hpos
  · show ((colors_data_of ci).length : ℤ) ≤ n
    rw [hlen]
    exact hcle
  · show |((colors_data_of ci).map Swatch.percentage).sum - 100|
        ≤ (n : ℚ) * (1 / 10)
    rw [colors_data_percent_sum]
    have hlenq : ((counter ci.labels).length : ℚ) ≤ (n : ℚ) := by
      exact_mod_cast hcle
    have hnq : (0 : ℚ) ≤ (n : ℚ) := by exact_mod_cast h0n
    calc |((counter ci.labels).map (fun p => roundTenth
            ((p.2 : ℚ) / ((((counter ci.labels).map Prod.snd).sum : ℕ) : ℚ)
              * 100))).sum - 100|
        ≤ ((counter ci.labels).length : ℚ) * (1 / 20) := hdiff
      _ ≤ (n : ℚ) * (1 / 10) := by linarith

/-- C3 witness: two populated clusters out of two requested, percentages
66.7 and 33.3. -/
theorem extract_palette_swatch_count_sum_witness :
    ∃ pal, extract_palette
        (some ⟨[0, 1, 0], [(255, 0, 0), (0, 0, 255)]⟩) 2 = Except.ok pal
      ∧ pal.colors.length = (counter ([0, 1, 0] : List Nat)).length
      ∧ 1 ≤ pal.colors.length
      ∧ (pal.colors.length : ℤ) ≤ 2
      ∧ |(pal.colors.map Swatch.percentage).sum - 100|
          ≤ ((2 : ℤ) : ℚ) * (1 / 10) :=
  extract_palette_swatch_count_sum 2 ⟨[0, 1, 0], [(255, 0, 0), (0, 0, 255)]⟩
    (by decide) (by decide) (by decide)

/-- C6: on a decodable image with a positive cluster count and at least one
pixel, the returned swatches are sorted by non-increasing percentage, the
first swatch has the maximal percentage, and it carries `role = Primary`
regardless of the role its lightness and saturation would assign. -/
theorem swatches_sorted_primary_first (n : ℤ) (ci : ClusteredImage)
    (hn : ¬ n ≤ 0) (hne : ci.labels ≠ []) :
    ∃ pal c0 rest, extract_palette (some ci) n = Except.ok pal
      ∧ pal.colors = c0 :: rest
      ∧ c0.role = "Primary"
      ∧ pal.colors.Pairwise (fun a b => b.percentage ≤ a.percentage)
      ∧ ∀ c ∈ pal.colors, c.percentage ≤ c0.percentage := by
  have hok : extract_palette (some ci) n
      = Except.ok
          { colors := colors_data_of ci
            analysis :=
              { color_scheme := "Generated Scheme"
                temperature :=
                  if ((colors_data_of ci).take 3).any
                      (fun c => decide (c.name ∈ ["Red", "Orange", "Yellow"]))
                  then "Warm" else "Cool"
                accessibility := ["AA Large", "AA Normal"] } } := by
    simp only [extract_palette, if_neg hn]
  have hlcd : ((((counter ci.labels).map
      (fun p => (ci.centers.getD p.1 (0, 0, 0), p.2))).insertionSort
        countGe).map
      (mkSwatch (((counter ci.labels).map Prod.snd).sum))).length
      = (counter ci.labels).length := by
    rw [List.length_map, (List.perm_insertionSort countGe _).length_eq,
      List.length_map]
  have hne2 : (((counter ci.labels).map
      (fun p => (ci.centers.getD p.1 (0, 0, 0), p.2))).insertionSort
        countGe).map
      (mkSwatch (((counter ci.labels).map Prod.snd).sum)) ≠ [] := by
    refine List.length_pos.mp ?_
    rw [hlcd]
    exact List.length_pos.mpr (counter_ne_nil hne)
  obtain ⟨c0, rest, hpp, hrole, hpw, hmax⟩ :=
    promote_primary_spec _ hne2
      (sorted_swatches (((counter ci.labels).map Prod.snd).sum) _)
  have hcolors : colors_data_of ci = c0 :: rest := by
    unfold colors_data_of
    exact hpp
  refine ⟨_, c0, rest, hok, hcolors, hrole, ?_, ?_⟩
  · show (colors_data_of ci).Pairwise (fun a b => b.percentage ≤ a.percentage)
    unfold colors_data_of
    exact hpw
  · intro c hc
    refine hmax c ?_
    have : c ∈ colors_data_of ci := hc
    rw [show colors_data_of ci = _ from rfl] at this
    exact this

/-- C6 witness: red dominates two-to-one and comes first labeled Primary. -/
theorem swatches_sorted_primary_first_witness :
    ∃ pal c0 rest, extract_palette
        (some ⟨[0, 0, 1], [(255, 0, 0), (0, 0, 255)]⟩) 2 = Except.ok pal
      ∧ pal.colors = c0 :: rest
      ∧ c0.role = "Primary"
      ∧ pal.colors.Pairwise (fun a b => b.percentage ≤ a.percentage)
      ∧ ∀ c ∈ pal.colors, c.percentage ≤ c0.percentage :=
  swatches_sorted_primary_first 2 ⟨[0, 0, 1], [(255, 0, 0), (0, 0, 255)]⟩
    (by decide) (by decide)

end Tesserae
